import Mathlib

/-!
Verification of the booltable pipeline (lexer, parser, compiler, stack VM,
truth-table generator, table formatter) against its specification.

The Rust sources are shallowly embedded as executable Lean definitions:

* source text is modelled as the list of its characters (`String` / `List Char`);
  a token's `span` is modelled by the text it slices out of the source, since
  byte offsets are used by the program only to slice variable names and for
  diagnostics (`Token.text`), never arithmetically;
* the expression tree drops the per-node `Span` field of `Spanned<Expr>`:
  node spans feed only the `Display` diagnostics and are never read by the
  compiler or the VM;
* the parser's `HashMap<&str, usize>` plus monotonic `counter` symbol table is
  modelled by the list of interned names in index order (`PState.names`): a
  name's index is its position, the counter is the length;
* Rust panics (`unwrap` on pop, out-of-bounds indexing) are modelled as
  explicit error values (`VMError`); fallible parsing returns `Except`;
* the recursive-descent parser and the lexer are defined with an explicit
  fuel parameter (structural recursion on the fuel) so that all definitions
  are executable and concrete runs reduce by `rfl`/`decide`; the top-level
  entry points supply fuel ample for their input, and all universally
  quantified theorems are proved for every fuel value.
-/

deriving instance DecidableEq for Except

/-! ## Lexer (src/lexer.rs) -/

/-- Token kinds, from `enum TK` in src/lexer.rs. `Error` is the logos error
variant: unrecognized input bytes are emitted as `Error` tokens (only the
whitespace class `[ \t\r\n\f]+` is skipped via `logos::skip`). `Eof` is the
sentinel synthesized once after the text is exhausted. -/
inductive TK where
  | Not
  | And
  | Or
  | Xor
  | True
  | False
  | Var
  | LParen
  | RParen
  | Equals
  | Error
  | Eof
deriving Repr, DecidableEq

/-- Display strings of `TK` (derive_more `Display`): variants carrying a
`display(fmt = ...)` attribute use it; `Equals`, `Error` and `Eof` have no
attribute and display as the variant name. Used for the `expected` field of
syntax errors (`expected.to_string()` in Parser::consume / Parser::expect). -/
def TK.toString : TK → String
  | .Not => "NOT"
  | .And => "AND"
  | .Or => "OR"
  | .Xor => "XOR"
  | .True => "True"
  | .False => "False"
  | .Var => "Variable"
  | .LParen => "("
  | .RParen => ")"
  | .Equals => "Equals"
  | .Error => "Error"
  | .Eof => "Eof"

/-- A token: kind plus the source text its span slices (`Token.text`).
The numeric `(start, end)` byte offsets are carried by the Rust `Token` only
to produce this slice and for diagnostics, so the model stores the slice. -/
structure Token where
  kind : TK
  text : String
deriving Repr, DecidableEq

/-- The synthetic end-of-input token: span `(len, len)` slices the empty
string. -/
def eofToken : Token := { kind := TK.Eof, text := "" }

/-- Whitespace class of the logos skip regex `[ \t\r\n\f]+`. -/
def isWS (c : Char) : Bool :=
  c = ' ' || c = '\t' || c = '\r' || c = '\n' || c = '\x0c'

/-- First character of the `Var` regex `([A-Za-z]|_)([A-Za-z]|_|\d)*`. -/
def isIdentStart (c : Char) : Bool :=
  c.isAlpha || c = '_'

/-- Continuation characters of the `Var` regex. -/
def isIdentChar (c : Char) : Bool :=
  isIdentStart c || c.isDigit

/-- Keyword resolution for a maximal identifier match: logos prefers the
fixed `#[token]` literals over the `Var` regex on equal-length matches, and
a longer identifier match beats any keyword prefix. -/
def keywordTK (s : String) : TK :=
  if s = "NOT" then TK.Not
  else if s = "AND" then TK.And
  else if s = "OR" then TK.Or
  else if s = "XOR" then TK.Xor
  else if s = "true" then TK.True
  else if s = "false" then TK.False
  else TK.Var

/-- The two-character lookahead for `->` (the second spelling of the Equals
token): a lone `-` matches no lexeme and becomes an `Error` token. -/
def lexDash (cs : List Char) : Token × List Char :=
  match cs with
  | '>' :: cs' => ({ kind := TK.Equals, text := "->" }, cs')
  | _ => ({ kind := TK.Error, text := "-" }, cs)

/-- One maximal-munch step of the logos lexer on a non-whitespace character
`c` followed by `cs`: the token produced and the remaining characters. An
identifier munches its longest run and resolves keywords; `->` consumes two
characters; an unrecognized character becomes an `Error` token. -/
def lexStep (c : Char) (cs : List Char) : Token × List Char :=
  if isIdentStart c then
    ({ kind := keywordTK (String.mk (c :: cs.takeWhile isIdentChar)),
       text := String.mk (c :: cs.takeWhile isIdentChar) }, cs.dropWhile isIdentChar)
  else if c = '!' then ({ kind := TK.Not, text := "!" }, cs)
  else if c = '.' then ({ kind := TK.And, text := "." }, cs)
  else if c = '+' then ({ kind := TK.Or, text := "+" }, cs)
  else if c = '^' || c = '⊕' || c = '⊻' then
    ({ kind := TK.Xor, text := String.mk [c] }, cs)
  else if c = '1' then ({ kind := TK.True, text := "1" }, cs)
  else if c = '0' then ({ kind := TK.False, text := "0" }, cs)
  else if c = '(' then ({ kind := TK.LParen, text := "(" }, cs)
  else if c = ')' then ({ kind := TK.RParen, text := ")" }, cs)
  else if c = '=' then ({ kind := TK.Equals, text := "=" }, cs)
  else if c = '-' then lexDash cs
  else ({ kind := TK.Error, text := String.mk [c] }, cs)

/-- Fueled lexer over the character list, modelling the logos-driven
`Iterator for Lexer` in src/lexer.rs: whitespace is skipped, every other
character starts a `lexStep` token, and exactly one `Eof` token is appended
once the text is exhausted. Each step consumes at least one character, so
fuel exceeding the input length never runs out (`lexL_endsEof`); on fuel
exhaustion the remaining token list is empty. -/
def lexL : Nat → List Char → List Token
  | 0, _ => []
  | _ + 1, [] => [eofToken]
  | fuel + 1, c :: cs =>
    if isWS c then lexL fuel cs
    else (lexStep c cs).1 :: lexL fuel (lexStep c cs).2

/-- The token sequence of an input string: `Lexer::new(input)` run to
exhaustion. Fuel `length + 1` always suffices (each step consumes a
character, plus one step for the final `Eof`). -/
def lex (input : String) : List Token :=
  lexL (input.data.length + 1) input.data

/-! ## Parser data model (src/parser.rs) -/

/-- Binary operators, from `enum BinOp` in src/parser.rs. -/
inductive BinOp where
  | And
  | Or
  | Xor
deriving Repr, DecidableEq

/-- `impl From<TK> for BinOp`: the catch-all arm is `unreachable!()` in the
source (callers only convert And/Or/Xor); the model returns an arbitrary
value there. -/
def binopOfTK : TK → BinOp
  | TK.And => BinOp.And
  | TK.Or => BinOp.Or
  | TK.Xor => BinOp.Xor
  | _ => BinOp.And

/-- Expression trees, from `enum Expr` in src/parser.rs (the per-node `Span`
of `Spanned<Expr>` is omitted: it feeds only diagnostics). -/
inductive Expr where
  | Bool : Bool → Expr
  | Var : Nat → Expr
  | Not : Expr → Expr
  | BinOp : BinOp → Expr → Expr → Expr
deriving Repr, DecidableEq

/-- Parser symbol-table state: models `variables: HashMap<&str, usize>`
together with `counter: usize`. Names are kept in index order, so a name's
interned index is its position in `names` and the counter is
`names.length`. -/
structure PState where
  names : List String
deriving Repr, DecidableEq

/-- Position of a key in the interned-name list, if present (models the
`HashMap` lookup of `Parser::insert_var`). -/
def lookupVar : List String → String → Option Nat
  | [], _ => none
  | n :: ns, key => if n = key then some 0 else (lookupVar ns key).map (· + 1)

/-- `Parser::insert_var`: `entry(key).or_insert_with(counter++)` — an
already-interned name keeps its index, a new name receives the next
sequential index (the current length) and is appended. -/
def insert_var (st : PState) (key : String) : Nat × PState :=
  match lookupVar st.names key with
  | some i => (i, st)
  | none => (st.names.length, { names := st.names ++ [key] })

/-- Syntax errors, from `enum SyntaxError` in src/parser.rs. -/
inductive SyntaxError where
  | UnexpectedToken : String → Token → SyntaxError
  | UnexpectedEof : Token → SyntaxError
deriving Repr, DecidableEq

/-- A parsed equation, from `struct Equation` in src/parser.rs. -/
structure Equation where
  inputs : List String
  lhs : Expr
  output : String
deriving Repr, DecidableEq

/-- The `inputs` list built at the end of `Parser::parse_equation`
(lines 103-112): the symbol table's `(name, index)` pairs — iterated here in
index order, one of the arbitrary orders a `HashMap` may produce — sorted by
index (`sort_unstable_by` on the second component; indices are distinct so
any correct sort yields the same list) and projected to the names. -/
def equationInputs (names : List String) : List String :=
  (((names.enum.map (fun p => (p.2, p.1))).insertionSort
    (fun a b => a.2 ≤ b.2)).map (fun p => p.1))

/-! ## The recursive-descent parser (src/parser.rs)

`Parser::parse_expr` is one Rust function: an initial match parsing one
unary term (inlining `parse_bool`, `parse_var`, `parse_not`, `parse_group`),
followed by a loop that, on an And/Or/Xor lookahead, consumes the operator,
recursively parses the entire remaining expression as the right operand and
rebuilds `lhs`. The model splits these into the `unaryC` and `loopC` call
modes of one fueled function `parseF`; `exprC` chains them exactly as the
source does. `Parser::peek` returns `Eof` for an exhausted stream, and
`Parser::next` on an exhausted stream fails with `UnexpectedEof`. -/

/-- Call modes of the parser: the unary-term match of `parse_expr`, the
whole of `parse_expr`, and its operator loop (carrying the accumulated left
operand). -/
inductive ParseCall where
  | unaryC : PState → List Token → ParseCall
  | exprC : PState → List Token → ParseCall
  | loopC : PState → Expr → List Token → ParseCall

/-- The parser. `none` models fuel exhaustion (the top-level entry point
supplies ample fuel); `some` carries the `ParseResult` of the source:
either a `SyntaxError` or the parsed expression together with the updated
symbol table and the remaining tokens. -/
def parseF : Nat → ParseCall → Option (Except SyntaxError (Expr × PState × List Token))
  | 0, _ => none
  | fuel + 1, ParseCall.unaryC st ts =>
    match ts with
    | [] =>
      -- peek on an exhausted stream is Eof, the catch-all arm's next() then
      -- fails with UnexpectedEof
      some (Except.error (SyntaxError.UnexpectedEof eofToken))
    | tok :: rest =>
      match tok.kind with
      | TK.True => some (Except.ok (Expr.Bool true, st, rest))
      | TK.False => some (Except.ok (Expr.Bool false, st, rest))
      | TK.Var =>
        -- parse_var: consume the token, intern its text
        match insert_var st tok.text with
        | (index, st') => some (Except.ok (Expr.Var index, st', rest))
      | TK.Not =>
        -- parse_not: consume NOT, recurse into a full expression
        match parseF fuel (ParseCall.exprC st rest) with
        | none => none
        | some (Except.error e) => some (Except.error e)
        | some (Except.ok (e, st', ts')) => some (Except.ok (Expr.Not e, st', ts'))
      | TK.LParen =>
        -- parse_group: consume '(', recurse, expect ')'; the node is the
        -- inner expression unchanged (only its span is rewritten)
        match parseF fuel (ParseCall.exprC st rest) with
        | none => none
        | some (Except.error e) => some (Except.error e)
        | some (Except.ok (e, st', ts')) =>
          match ts' with
          | [] => some (Except.error (SyntaxError.UnexpectedEof eofToken))
          | tok2 :: rest2 =>
            if tok2.kind = TK.RParen then some (Except.ok (e, st', rest2))
            else some (Except.error (SyntaxError.UnexpectedToken (TK.toString TK.RParen) tok2))
      | _ => some (Except.error (SyntaxError.UnexpectedToken "boolean expression" tok))
  | fuel + 1, ParseCall.exprC st ts =>
    match parseF fuel (ParseCall.unaryC st ts) with
    | none => none
    | some (Except.error e) => some (Except.error e)
    | some (Except.ok (lhs, st', ts')) => parseF fuel (ParseCall.loopC st' lhs ts')
  | fuel + 1, ParseCall.loopC st lhs ts =>
    match ts with
    | [] => some (Except.ok (lhs, st, []))
    | tok :: rest =>
      match tok.kind with
      | TK.And | TK.Or | TK.Xor =>
        match parseF fuel (ParseCall.exprC st rest) with
        | none => none
        | some (Except.error e) => some (Except.error e)
        | some (Except.ok (rhs, st', ts')) =>
          parseF fuel (ParseCall.loopC st' (Expr.BinOp (binopOfTK tok.kind) lhs rhs) ts')
      | TK.RParen | TK.Equals | TK.Eof => some (Except.ok (lhs, st, tok :: rest))
      | _ => some (Except.error (SyntaxError.UnexpectedToken "AND, OR, XOR or )" tok))

/-- `Parser::parse_equation`: parse an expression, consume `=`
(`consume(TK::Equals)`), expect a variable token (`expect(TK::Var)`) whose
text becomes the output name (the output is not interned), and assemble the
`Equation` with the sorted symbol-table names as `inputs`. Whatever follows
the output token is returned unexamined. -/
def parseEquationF (fuel : Nat) (st : PState) (ts : List Token) :
    Option (Except SyntaxError (Equation × List Token)) :=
  match parseF fuel (ParseCall.exprC st ts) with
  | none => none
  | some (Except.error e) => some (Except.error e)
  | some (Except.ok (lhs, st', ts')) =>
    match ts' with
    | [] => some (Except.error (SyntaxError.UnexpectedEof eofToken))
    | tok :: rest =>
      if tok.kind = TK.Equals then
        match rest with
        | [] => some (Except.error (SyntaxError.UnexpectedEof eofToken))
        | tok2 :: rest2 =>
          if tok2.kind = TK.Var then
            some (Except.ok
              ({ inputs := equationInputs st'.names, lhs := lhs, output := tok2.text }, rest2))
          else some (Except.error (SyntaxError.UnexpectedToken (TK.toString TK.Var) tok2))
      else some (Except.error (SyntaxError.UnexpectedToken (TK.toString TK.Equals) tok))

/-- Top-level parse of an input string: lex it and run `parse_equation` on a
fresh parser state, with fuel ample for the token count (the parser consumes
at least one token every two recursion levels). -/
def parse_equation (input : String) : Option (Except SyntaxError (Equation × List Token)) :=
  parseEquationF (2 * (lex input).length + 2) { names := [] } (lex input)

/-! ## Compiler (src/compiler.rs) and VM data (src/vm.rs) -/

/-- Stack-machine instructions, from `enum Op` in src/vm.rs. -/
inductive Op where
  | Push : Bool → Op
  | Load : Nat → Op
  | Not
  | And
  | Or
  | Xor
deriving Repr, DecidableEq

/-- `Compiler::compile_expr`: post-order emission into the accumulating
instruction vector `ops`; for `BinOp` the right operand is emitted first,
then the left, then the operator. -/
def compile_expr (ops : List Op) : Expr → List Op
  | Expr.Bool b => ops ++ [Op.Push b]
  | Expr.Var v => ops ++ [Op.Load v]
  | Expr.Not e => compile_expr ops e ++ [Op.Not]
  | Expr.BinOp op lhs rhs =>
    let ops1 := compile_expr ops rhs
    let ops2 := compile_expr ops1 lhs
    ops2 ++ [match op with
             | BinOp.And => Op.And
             | BinOp.Or => Op.Or
             | BinOp.Xor => Op.Xor]

/-- A compiled equation, from `struct Equation` in src/compiler.rs. -/
structure CEquation where
  inputs : List String
  lhs : List Op
  output : String
deriving Repr, DecidableEq

/-- `Compiler::compile`: lower the expression tree, keep inputs and output. -/
def compile (eq : Equation) : CEquation :=
  { inputs := eq.inputs, lhs := compile_expr [] eq.lhs, output := eq.output }

/-- The two panics of the evaluator: `VM::pop` on an empty stack
(`self.stack.pop().unwrap()`) and `Op::Load` indexing the assignment out of
bounds (`inputs[i]`). Modelled as explicit errors. -/
inductive VMError where
  | StackUnderflow
  | LoadOOB
deriving Repr, DecidableEq

/-- One step of the instruction loop in `VM::exec`. The `binop!` macro pops
`lhs` first, then `rhs`, and pushes `lhs op rhs`. -/
def stepOp (inputs : List Bool) (stack : List Bool) : Op → Except VMError (List Bool)
  | Op.Push v => Except.ok (v :: stack)
  | Op.Load i =>
    match inputs[i]? with
    | some v => Except.ok (v :: stack)
    | none => Except.error VMError.LoadOOB
  | Op.Not =>
    match stack with
    | operand :: rest => Except.ok ((!operand) :: rest)
    | [] => Except.error VMError.StackUnderflow
  | Op.And =>
    match stack with
    | lhs :: rhs :: rest => Except.ok ((lhs && rhs) :: rest)
    | _ => Except.error VMError.StackUnderflow
  | Op.Or =>
    match stack with
    | lhs :: rhs :: rest => Except.ok ((lhs || rhs) :: rest)
    | _ => Except.error VMError.StackUnderflow
  | Op.Xor =>
    match stack with
    | lhs :: rhs :: rest => Except.ok ((xor lhs rhs) :: rest)
    | _ => Except.error VMError.StackUnderflow

/-- The instruction loop of `VM::exec` over the whole program. -/
def runOps (inputs : List Bool) : List Op → List Bool → Except VMError (List Bool)
  | [], stack => Except.ok stack
  | op :: ops, stack =>
    match stepOp inputs stack op with
    | Except.error e => Except.error e
    | Except.ok stack' => runOps inputs ops stack'

/-- `VM::exec`: run the program on the VM's current stack, then pop the
result. Returns the popped value and the stack left behind (the Rust VM
keeps its stack between rows). -/
def exec (inputs : List Bool) (ops : List Op) (stack : List Bool) :
    Except VMError (Bool × List Bool) :=
  match runOps inputs ops stack with
  | Except.error e => Except.error e
  | Except.ok stack' =>
    match stack' with
    | v :: rest => Except.ok (v, rest)
    | [] => Except.error VMError.StackUnderflow

/-- `usize_to_bools(num, digits)`: bits of `num`, most significant of the
low `digits` bits first — `(1..=digits).map(|i| (num >> (digits - i)) & 1 == 1)`. -/
def usize_to_bools (num digits : Nat) : List Bool :=
  (List.range' 1 digits).map (fun i => ((num >>> (digits - i)) &&& 1) == 1)

/-- A truth table, from `struct TruthTable` in src/vm.rs. -/
structure TruthTable where
  input_names : List String
  inputs : List (List Bool)
  output_name : String
  outputs : List Bool
deriving Repr, DecidableEq

/-- The `outputs` column of `VM::gen`: execute the program once per row,
threading the VM's stack from row to row (the Rust VM reuses `self.stack`). -/
def genOutputs (ops : List Op) : List (List Bool) → List Bool →
    Except VMError (List Bool × List Bool)
  | [], stack => Except.ok ([], stack)
  | row :: rows, stack =>
    match exec row ops stack with
    | Except.error e => Except.error e
    | Except.ok (v, stack') =>
      match genOutputs ops rows stack' with
      | Except.error e => Except.error e
      | Except.ok (vs, stack'') => Except.ok (v :: vs, stack'')

/-- `VM::gen`: enumerate the assignments in increasing row order, execute
each, and assemble the table. The row count is `1usize << length`: a
64-bit shift whose amount wraps modulo the width in release builds, so for
length ≥ 64 the count is `2 ^ (length mod 64)`, not `2 ^ length` (a debug
build would panic on the shift overflow instead; the release wrap is
modelled). An evaluator panic is surfaced as the `VMError`. -/
def gen (eq : CEquation) : Except VMError TruthTable :=
  let length := eq.inputs.length
  let num_rows := 1 <<< (length % 64)
  let inputs : List (List Bool) := (List.range num_rows).map (fun i => usize_to_bools i length)
  match genOutputs eq.lhs inputs [] with
  | Except.error e => Except.error e
  | Except.ok (outputs, _) =>
    Except.ok { input_names := eq.inputs, inputs := inputs,
                output_name := eq.output, outputs := outputs }

/-! ## Table formatter (`impl fmt::Display for TruthTable` in src/vm.rs) -/

/-- Left-aligned space padding to a given width: Rust `format!` with
`{:<width$}`. Name lengths are in bytes in Rust; every character of a
lexer-produced name or of a rendered boolean cell is ASCII, so character
counts coincide. -/
def padTo (s : String) (w : Nat) : String :=
  s ++ String.mk (List.replicate (w - s.length) ' ')

/-- A run of dashes: Rust `"-".repeat(n)`. -/
def dashes (n : Nat) : String :=
  String.mk (List.replicate n '-')

/-- The `Display` implementation for `TruthTable`: header row, dash
separator row sized to each column's name, then one row per assignment with
booleans rendered `1`/`0` left-padded to the column width, columns joined
by " | " and rows bounded by "|"; every line (including the last) ends in a
newline. -/
def TruthTable.render (t : TruthTable) : String :=
  let output_length := t.output_name.length
  let lengths : List Nat := t.input_names.map String.length
  let line1 := "| " ++ String.intercalate " | " t.input_names ++ " | " ++ t.output_name ++ " |\n"
  let line2 := "|" ++ String.intercalate "|" (lengths.map (fun x => dashes (x + 2)))
    ++ "|" ++ dashes (output_length + 2) ++ "|\n"
  let rows : List String := t.inputs.map (fun r =>
    "| " ++ String.intercalate " | "
      ((r.zip lengths).map (fun p => padTo (if p.1 then "1" else "0") p.2)) ++ " |")
  let rows2 : List String := (rows.zip t.outputs).map (fun p =>
    p.1 ++ " " ++ padTo (if p.2 then "1" else "0") output_length ++ " |")
  line1 ++ line2 ++ String.intercalate "\n" rows2 ++ "\n"

/-- The whole pipeline as run by src/main.rs: parse, compile, generate,
render. `none` models the `unwrap` panics on a parse failure (and fuel
exhaustion) and an evaluator panic. -/
def table_string (input : String) : Option String :=
  match parse_equation input with
  | some (Except.ok (eq, _)) =>
    match gen (compile eq) with
    | Except.ok t => some (TruthTable.render t)
    | Except.error _ => none
  | _ => none

/-! ## Specification-side definitions

These follow the spec's words, not the source: they are the reference
points the code is compared against. -/

/-- Modelled from the spec: the standard recursive evaluation of an
expression tree — `Bool(v)` is `v`, `Var(i)` is `assignment[i]`, `Not` is
logical negation, `And`/`Or`/`Xor` are the boolean operations. Var indices
out of range (excluded for well-formed equations) read `false`. -/
def evalExpr (assignment : List Bool) : Expr → Bool
  | Expr.Bool v => v
  | Expr.Var i => assignment.getD i false
  | Expr.Not e => !(evalExpr assignment e)
  | Expr.BinOp op l r =>
    match op with
    | BinOp.And => evalExpr assignment l && evalExpr assignment r
    | BinOp.Or => evalExpr assignment l || evalExpr assignment r
    | BinOp.Xor => xor (evalExpr assignment l) (evalExpr assignment r)

/-- Recursive evaluation with explicit failure on an out-of-range variable
index, mirroring the `inputs[i]` panic. -/
def evalExprOpt (assignment : List Bool) : Expr → Option Bool
  | Expr.Bool v => some v
  | Expr.Var i => assignment[i]?
  | Expr.Not e => (evalExprOpt assignment e).map (fun b => !b)
  | Expr.BinOp op l r =>
    match evalExprOpt assignment l, evalExprOpt assignment r with
    | some a, some b =>
      some (match op with
            | BinOp.And => a && b
            | BinOp.Or => a || b
            | BinOp.Xor => xor a b)
    | _, _ => none

/-- The variable indices of an expression, in left-to-right (source
occurrence) order. -/
def varIndicesInOrder : Expr → List Nat
  | Expr.Bool _ => []
  | Expr.Var i => [i]
  | Expr.Not e => varIndicesInOrder e
  | Expr.BinOp _ l r => varIndicesInOrder l ++ varIndicesInOrder r

/-- Every variable index of the expression is below `n`. -/
def varsBelow (e : Expr) (n : Nat) : Bool :=
  (varIndicesInOrder e).all (fun i => i < n)

/-- Record a value as seen, keeping the first-occurrence order. -/
def addIdx (seen : List Nat) (i : Nat) : List Nat :=
  if i ∈ seen then seen else seen ++ [i]

/-- The distinct values of a list in first-occurrence order. -/
def dedupFirst (l : List Nat) : List Nat :=
  l.foldl addIdx []

/-- The token list ends with the synthetic Eof token: the invariant that the
lexer output satisfies and the parser preserves, making the UnexpectedEof
error unreachable from parse_equation. -/
def endsEof (ts : List Token) : Prop := ∃ pre, ts = pre ++ [eofToken]

/-! ## Compiler and VM lemmas -/

theorem compile_expr_append (e : Expr) :
    ∀ ops : List Op, compile_expr ops e = ops ++ compile_expr [] e := by
  induction e with
  | Bool b => intro ops; simp [compile_expr]
  | Var v => intro ops; simp [compile_expr]
  | Not e ih => intro ops; simp only [compile_expr]; rw [ih ops]; simp
  | BinOp op l r ihl ihr =>
    intro ops
    simp only [compile_expr]
    rw [ihr ops, ihl (ops ++ compile_expr [] r), ihl (compile_expr [] r)]
    simp

theorem runOps_append (inputs : List Bool) :
    ∀ (l₁ l₂ : List Op) (stack : List Bool),
    runOps inputs (l₁ ++ l₂) stack =
      match runOps inputs l₁ stack with
      | Except.ok st' => runOps inputs l₂ st'
      | Except.error e => Except.error e := by
  intro l₁
  induction l₁ with
  | nil => intro l₂ stack; simp [runOps]
  | cons op ops ih =>
    intro l₂ stack
    simp only [List.cons_append, runOps]
    cases stepOp inputs stack op with
    | error e => simp
    | ok stack' => simp [ih]

/-- The central compiler-correctness lemma: running the code compiled from
`e` pushes exactly the recursively computed value of `e` onto the stack, or
fails with the out-of-bounds-load panic when `e` reads past the assignment;
a pop underflow never occurs. -/
theorem runOps_compile (inputs : List Bool) (e : Expr) :
    ∀ stack : List Bool,
    runOps inputs (compile_expr [] e) stack =
      match evalExprOpt inputs e with
      | some v => Except.ok (v :: stack)
      | none => Except.error VMError.LoadOOB := by
  induction e with
  | Bool b => intro stack; simp [compile_expr, evalExprOpt, runOps, stepOp]
  | Var i =>
    intro stack
    simp only [compile_expr, evalExprOpt, List.nil_append, runOps, stepOp]
    cases h : inputs[i]? with
    | none => simp [h, runOps]
    | some v => simp [h, runOps]
  | Not e ih =>
    intro stack
    simp only [compile_expr]
    rw [runOps_append]
    rw [ih stack]
    cases h : evalExprOpt inputs e with
    | none => simp [evalExprOpt, h]
    | some v => simp [evalExprOpt, h, runOps, stepOp]
  | BinOp op l r ihl ihr =>
    intro stack
    simp only [compile_expr]
    rw [compile_expr_append l (compile_expr [] r)]
    rw [List.append_assoc, runOps_append]
    rw [ihr stack]
    cases hr : evalExprOpt inputs r <;>
      cases hl : evalExprOpt inputs l <;>
      cases op <;>
      simp [evalExprOpt, hl, hr, runOps_append, ihl, runOps, stepOp]

theorem varsBelow_var (i n : Nat) : varsBelow (Expr.Var i) n = decide (i < n) := by
  simp [varsBelow, varIndicesInOrder]

theorem varsBelow_not (e : Expr) (n : Nat) : varsBelow (Expr.Not e) n = varsBelow e n := rfl

theorem varsBelow_binop (op : BinOp) (l r : Expr) (n : Nat) :
    varsBelow (Expr.BinOp op l r) n = (varsBelow l n && varsBelow r n) := by
  simp [varsBelow, varIndicesInOrder]

/-- Under the well-formedness bound, recursive evaluation never fails and
agrees with the total specification evaluation. -/
theorem evalExprOpt_eq_some (inputs : List Bool) (e : Expr)
    (h : varsBelow e inputs.length = true) :
    evalExprOpt inputs e = some (evalExpr inputs e) := by
  induction e with
  | Bool b => simp [evalExprOpt, evalExpr]
  | Var i =>
    rw [varsBelow_var] at h
    have hi : i < inputs.length := of_decide_eq_true h
    simp [evalExprOpt, evalExpr, List.getElem?_eq_getElem hi, List.getD_eq_getElem?_getD]
  | Not e ih =>
    rw [varsBelow_not] at h
    simp [evalExprOpt, evalExpr, ih h]
  | BinOp op l r ihl ihr =>
    rw [varsBelow_binop] at h
    have hl := (Bool.and_eq_true _ _).mp h
    simp [evalExprOpt, evalExpr, ihl hl.1, ihr hl.2]

/-- Claim C1: for every well-formed equation expression and every assignment
to its inputs, executing the compiled instruction sequence (post-order,
right operand first) on an initially empty stack returns exactly the value
of the standard recursive evaluation of the expression tree, leaving the
stack empty. -/
theorem spec_c1_compiled_exec_equals_eval (e : Expr) (inputs : List Bool)
    (h : varsBelow e inputs.length = true) :
    exec inputs (compile_expr [] e) [] = Except.ok (evalExpr inputs e, []) := by
  unfold exec
  rw [runOps_compile inputs e [], evalExprOpt_eq_some inputs e h]

theorem spec_c1_witness :
    varsBelow (Expr.BinOp BinOp.Xor (Expr.Var 0) (Expr.Not (Expr.Var 1))) 2 = true ∧
    exec [true, false] (compile_expr [] (Expr.BinOp BinOp.Xor (Expr.Var 0) (Expr.Not (Expr.Var 1)))) []
      = Except.ok (evalExpr [true, false] (Expr.BinOp BinOp.Xor (Expr.Var 0) (Expr.Not (Expr.Var 1))), []) :=
  ⟨by decide,
   spec_c1_compiled_exec_equals_eval
     (Expr.BinOp BinOp.Xor (Expr.Var 0) (Expr.Not (Expr.Var 1))) [true, false] (by decide)⟩

/-- Claim C3: executing code compiled from an expression tree from an empty
stack never pops an empty stack (the only other possible failure is the
out-of-bounds `Load` panic, a different error), and under the
well-formedness bound the run completes with exactly one value on the
stack, the recursively evaluated output. -/
theorem spec_c3_no_underflow_one_result :
    (∀ (e : Expr) (inputs stack : List Bool),
       runOps inputs (compile_expr [] e) stack ≠ Except.error VMError.StackUnderflow) ∧
    (∀ (e : Expr) (inputs : List Bool), varsBelow e inputs.length = true →
       runOps inputs (compile_expr [] e) [] = Except.ok [evalExpr inputs e]) := by
  constructor
  · intro e inputs stack
    rw [runOps_compile inputs e stack]
    cases evalExprOpt inputs e <;> simp
  · intro e inputs h
    rw [runOps_compile inputs e [], evalExprOpt_eq_some inputs e h]

theorem spec_c3_witness :
    runOps [false] (compile_expr [] (Expr.BinOp BinOp.Or (Expr.Var 0) (Expr.Bool true))) [true]
      ≠ Except.error VMError.StackUnderflow ∧
    runOps [false] (compile_expr [] (Expr.BinOp BinOp.Or (Expr.Var 0) (Expr.Bool true))) []
      = Except.ok [evalExpr [false] (Expr.BinOp BinOp.Or (Expr.Var 0) (Expr.Bool true))] :=
  ⟨spec_c3_no_underflow_one_result.1 (Expr.BinOp BinOp.Or (Expr.Var 0) (Expr.Bool true)) [false] [true],
   spec_c3_no_underflow_one_result.2 (Expr.BinOp BinOp.Or (Expr.Var 0) (Expr.Bool true)) [false] (by decide)⟩

/-! ## Truth-table generator lemmas -/

theorem usize_to_bools_length (num digits : Nat) :
    (usize_to_bools num digits).length = digits := by
  simp [usize_to_bools]

theorem parseF_zero (c : ParseCall) : parseF 0 c = none := rfl

theorem parseF_unary_nil (f : Nat) (st : PState) :
    parseF (f + 1) (ParseCall.unaryC st [])
      = some (Except.error (SyntaxError.UnexpectedEof eofToken)) := rfl

theorem parseF_unary_true (f : Nat) (st : PState) (tok : Token) (rest : List Token)
    (h : tok.kind = TK.True) :
    parseF (f + 1) (ParseCall.unaryC st (tok :: rest))
      = some (Except.ok (Expr.Bool true, st, rest)) := by
  cases tok with
  | mk k txt => cases h; rfl

theorem parseF_unary_false (f : Nat) (st : PState) (tok : Token) (rest : List Token)
    (h : tok.kind = TK.False) :
    parseF (f + 1) (ParseCall.unaryC st (tok :: rest))
      = some (Except.ok (Expr.Bool false, st, rest)) := by
  cases tok with
  | mk k txt => cases h; rfl

theorem parseF_unary_var (f : Nat) (st : PState) (tok : Token) (rest : List Token)
    (h : tok.kind = TK.Var) :
    parseF (f + 1) (ParseCall.unaryC st (tok :: rest))
      = some (Except.ok (Expr.Var (insert_var st tok.text).1, (insert_var st tok.text).2, rest)) := by
  cases tok with
  | mk k txt => cases h; rfl

theorem parseF_unary_not (f : Nat) (st : PState) (tok : Token) (rest : List Token)
    (h : tok.kind = TK.Not) :
    parseF (f + 1) (ParseCall.unaryC st (tok :: rest))
      = match parseF f (ParseCall.exprC st rest) with
        | none => none
        | some (Except.error e) => some (Except.error e)
        | some (Except.ok (e, st', ts')) => some (Except.ok (Expr.Not e, st', ts')) := by
  cases tok with
  | mk k txt => cases h; rfl

theorem parseF_unary_lparen (f : Nat) (st : PState) (tok : Token) (rest : List Token)
    (h : tok.kind = TK.LParen) :
    parseF (f + 1) (ParseCall.unaryC st (tok :: rest))
      = match parseF f (ParseCall.exprC st rest) with
        | none => none
        | some (Except.error e) => some (Except.error e)
        | some (Except.ok (e, st', ts')) =>
          match ts' with
          | [] => some (Except.error (SyntaxError.UnexpectedEof eofToken))
          | tok2 :: rest2 =>
            if tok2.kind = TK.RParen then some (Except.ok (e, st', rest2))
            else some (Except.error (SyntaxError.UnexpectedToken (TK.toString TK.RParen) tok2)) := by
  cases tok with
  | mk k txt => cases h; rfl

theorem parseF_unary_err (f : Nat) (st : PState) (tok : Token) (rest : List Token)
    (h : tok.kind = TK.And ∨ tok.kind = TK.Or ∨ tok.kind = TK.Xor ∨ tok.kind = TK.RParen ∨
         tok.kind = TK.Equals ∨ tok.kind = TK.Error ∨ tok.kind = TK.Eof) :
    parseF (f + 1) (ParseCall.unaryC st (tok :: rest))
      = some (Except.error (SyntaxError.UnexpectedToken "boolean expression" tok)) := by
  cases tok with
  | mk k txt => rcases h with h | h | h | h | h | h | h <;> cases h <;> rfl

theorem parseF_expr (f : Nat) (st : PState) (ts : List Token) :
    parseF (f + 1) (ParseCall.exprC st ts)
      = match parseF f (ParseCall.unaryC st ts) with
        | none => none
        | some (Except.error e) => some (Except.error e)
        | some (Except.ok (lhs, st', ts')) => parseF f (ParseCall.loopC st' lhs ts') := rfl

theorem parseF_loop_nil (f : Nat) (st : PState) (lhs : Expr) :
    parseF (f + 1) (ParseCall.loopC st lhs []) = some (Except.ok (lhs, st, [])) := rfl

theorem parseF_loop_op (f : Nat) (st : PState) (lhs : Expr) (tok : Token) (rest : List Token)
    (h : tok.kind = TK.And ∨ tok.kind = TK.Or ∨ tok.kind = TK.Xor) :
    parseF (f + 1) (ParseCall.loopC st lhs (tok :: rest))
      = match parseF f (ParseCall.exprC st rest) with
        | none => none
        | some (Except.error e) => some (Except.error e)
        | some (Except.ok (rhs, st', ts')) =>
          parseF f (ParseCall.loopC st' (Expr.BinOp (binopOfTK tok.kind) lhs rhs) ts') := by
  cases tok with
  | mk k txt => rcases h with h | h | h <;> cases h <;> rfl

theorem parseF_loop_stop (f : Nat) (st : PState) (lhs : Expr) (tok : Token) (rest : List Token)
    (h : tok.kind = TK.RParen ∨ tok.kind = TK.Equals ∨ tok.kind = TK.Eof) :
    parseF (f + 1) (ParseCall.loopC st lhs (tok :: rest))
      = some (Except.ok (lhs, st, tok :: rest)) := by
  cases tok with
  | mk k txt => rcases h with h | h | h <;> cases h <;> rfl

theorem parseF_loop_err (f : Nat) (st : PState) (lhs : Expr) (tok : Token) (rest : List Token)
    (h : tok.kind = TK.True ∨ tok.kind = TK.False ∨ tok.kind = TK.Var ∨ tok.kind = TK.Not ∨
         tok.kind = TK.LParen ∨ tok.kind = TK.Error) :
    parseF (f + 1) (ParseCall.loopC st lhs (tok :: rest))
      = some (Except.error (SyntaxError.UnexpectedToken "AND, OR, XOR or )" tok)) := by
  cases tok with
  | mk k txt => rcases h with h | h | h | h | h | h <;> cases h <;> rfl

/-! ## The token stream always ends with the Eof sentinel -/

theorem endsEof_cons (tok : Token) (ts : List Token) (h : endsEof ts) : endsEof (tok :: ts) := by
  obtain ⟨pre, rfl⟩ := h
  exact ⟨tok :: pre, rfl⟩

theorem endsEof_ne_nil (ts : List Token) (h : endsEof ts) : ts ≠ [] := by
  obtain ⟨pre, rfl⟩ := h
  simp

theorem endsEof_tail (tok : Token) (rest : List Token) (h : endsEof (tok :: rest))
    (hk : tok.kind ≠ TK.Eof) : endsEof rest := by
  obtain ⟨pre, hp⟩ := h
  cases pre with
  | nil =>
    simp only [List.nil_append, List.cons.injEq] at hp
    exact absurd (by rw [hp.1]; rfl) hk
  | cons p pre' =>
    simp only [List.cons_append, List.cons.injEq] at hp
    exact ⟨pre', hp.2⟩

theorem length_dropWhile_le (p : Char → Bool) :
    ∀ l : List Char, (l.dropWhile p).length ≤ l.length := by
  intro l
  induction l with
  | nil => simp [List.dropWhile]
  | cons c cs ih =>
    simp only [List.dropWhile_cons]
    split
    · exact Nat.le_trans ih (by simp)
    · simp

theorem lexDash_length (cs : List Char) : (lexDash cs).2.length ≤ cs.length := by
  unfold lexDash
  split
  · exact Nat.le_succ _
  · exact Nat.le_refl _

set_option maxHeartbeats 4000000 in
theorem lexStep_length (c : Char) (cs : List Char) : (lexStep c cs).2.length ≤ cs.length := by
  unfold lexStep
  repeat' split
  all_goals first
    | exact length_dropWhile_le _ _
    | exact lexDash_length _
    | exact Nat.le_refl _

theorem lexL_endsEof : ∀ (fuel : Nat) (cs : List Char), cs.length < fuel →
    endsEof (lexL fuel cs) := by
  intro fuel
  induction fuel with
  | zero => intro cs h; exact absurd h (by omega)
  | succ f ih =>
    intro cs h
    match cs with
    | [] => exact ⟨[], rfl⟩
    | c :: cs' =>
      have hlen : cs'.length < f := by
        simp only [List.length_cons] at h
        omega
      rw [lexL]
      split
      · exact ih cs' hlen
      · exact endsEof_cons _ _ (ih _ (Nat.lt_of_le_of_lt (lexStep_length c cs') hlen))

theorem lex_endsEof (input : String) : endsEof (lex input) :=
  lexL_endsEof _ _ (Nat.lt_succ_self _)

/-- Eof-safety of the parser, by induction on fuel: on a token stream that
ends with the Eof sentinel, no parser call ever returns the UnexpectedEof
error (the only `next()` on an exhausted stream would), and a successful
call leaves a stream that still ends with the sentinel. -/
theorem parseF_eof_inv : ∀ fuel : Nat,
    (∀ st ts, endsEof ts →
      (∀ t, parseF fuel (ParseCall.unaryC st ts)
          ≠ some (Except.error (SyntaxError.UnexpectedEof t))) ∧
      (∀ e st' ts', parseF fuel (ParseCall.unaryC st ts) = some (Except.ok (e, st', ts')) →
          endsEof ts')) ∧
    (∀ st ts, endsEof ts →
      (∀ t, parseF fuel (ParseCall.exprC st ts)
          ≠ some (Except.error (SyntaxError.UnexpectedEof t))) ∧
      (∀ e st' ts', parseF fuel (ParseCall.exprC st ts) = some (Except.ok (e, st', ts')) →
          endsEof ts')) ∧
    (∀ st lhs ts, endsEof ts →
      (∀ t, parseF fuel (ParseCall.loopC st lhs ts)
          ≠ some (Except.error (SyntaxError.UnexpectedEof t))) ∧
      (∀ e st' ts', parseF fuel (ParseCall.loopC st lhs ts) = some (Except.ok (e, st', ts')) →
          endsEof ts')) := by
  intro fuel
  induction fuel with
  | zero =>
    refine ⟨fun st ts h => ⟨?_, ?_⟩, fun st ts h => ⟨?_, ?_⟩, fun st lhs ts h => ⟨?_, ?_⟩⟩ <;>
      simp [parseF_zero]
  | succ f ih =>
    obtain ⟨ihU, ihE, ihL⟩ := ih
    refine ⟨?_, ?_, ?_⟩
    · -- unary
      intro st ts h
      cases ts with
      | nil => exact absurd rfl (endsEof_ne_nil _ h)
      | cons tok rest =>
        cases htk : tok.kind with
        | True =>
          rw [parseF_unary_true f st tok rest htk]
          exact ⟨fun t hc => by simp at hc,
                 fun e st' ts' hc => by
                   simp only [Option.some.injEq, Except.ok.injEq, Prod.mk.injEq] at hc
                   rw [← hc.2.2]
                   exact endsEof_tail tok rest h (by simp [htk])⟩
        | False =>
          rw [parseF_unary_false f st tok rest htk]
          exact ⟨fun t hc => by simp at hc,
                 fun e st' ts' hc => by
                   simp only [Option.some.injEq, Except.ok.injEq, Prod.mk.injEq] at hc
                   rw [← hc.2.2]
                   exact endsEof_tail tok rest h (by simp [htk])⟩
        | Var =>
          rw [parseF_unary_var f st tok rest htk]
          exact ⟨fun t hc => by simp at hc,
                 fun e st' ts' hc => by
                   simp only [Option.some.injEq, Except.ok.injEq, Prod.mk.injEq] at hc
                   rw [← hc.2.2]
                   exact endsEof_tail tok rest h (by simp [htk])⟩
        | Not =>
          rw [parseF_unary_not f st tok rest htk]
          have hrest : endsEof rest := endsEof_tail tok rest h (by simp [htk])
          obtain ⟨eA, eB⟩ := ihE st rest hrest
          cases hres : parseF f (ParseCall.exprC st rest) with
          | none => exact ⟨fun t hc => by simp at hc, fun e st' ts' hc => by simp at hc⟩
          | some r =>
            cases r with
            | error err =>
              refine ⟨fun t hc => ?_, fun e st' ts' hc => by simp at hc⟩
              simp only [Option.some.injEq, Except.error.injEq] at hc
              exact eA t (by rw [hres, hc])
            | ok p =>
              obtain ⟨e1, st1, ts1⟩ := p
              refine ⟨fun t hc => by simp at hc, fun e st' ts' hc => ?_⟩
              simp only [Option.some.injEq, Except.ok.injEq, Prod.mk.injEq] at hc
              rw [← hc.2.2]
              exact eB e1 st1 ts1 hres
        | LParen =>
          have hrest : endsEof rest := endsEof_tail tok rest h (by simp [htk])
          obtain ⟨eA, eB⟩ := ihE st rest hrest
          cases hres : parseF f (ParseCall.exprC st rest) with
          | none =>
            rw [parseF_unary_lparen f st tok rest htk, hres]
            exact ⟨fun t hc => by simp at hc, fun e st' ts' hc => by simp at hc⟩
          | some r =>
            cases r with
            | error err =>
              rw [parseF_unary_lparen f st tok rest htk, hres]
              refine ⟨fun t hc => ?_, fun e st' ts' hc => by simp at hc⟩
              simp only [Option.some.injEq, Except.error.injEq] at hc
              exact eA t (by rw [hres, hc])
            | ok p =>
              obtain ⟨e1, st1, ts1⟩ := p
              have h1 : endsEof ts1 := eB e1 st1 ts1 hres
              rw [parseF_unary_lparen f st tok rest htk, hres]
              cases ts1 with
              | nil => exact absurd rfl (endsEof_ne_nil _ h1)
              | cons tok2 rest2 =>
                by_cases h2 : tok2.kind = TK.RParen
                · refine ⟨fun t hc => by simp [h2] at hc, fun e st' ts' hc => ?_⟩
                  simp only [h2, if_true, Option.some.injEq, Except.ok.injEq,
                    Prod.mk.injEq] at hc
                  obtain ⟨h3, h4, h5⟩ := hc
                  subst h5
                  exact endsEof_tail tok2 rest2 h1 (by simp [h2])
                · refine ⟨fun t hc => by simp [h2] at hc, fun e st' ts' hc => by simp [h2] at hc⟩
        | And =>
          rw [parseF_unary_err f st tok rest (by simp [htk])]
          exact ⟨fun t hc => by simp at hc, fun e st' ts' hc => by simp at hc⟩
        | Or =>
          rw [parseF_unary_err f st tok rest (by simp [htk])]
          exact ⟨fun t hc => by simp at hc, fun e st' ts' hc => by simp at hc⟩
        | Xor =>
          rw [parseF_unary_err f st tok rest (by simp [htk])]
          exact ⟨fun t hc => by simp at hc, fun e st' ts' hc => by simp at hc⟩
        | RParen =>
          rw [parseF_unary_err f st tok rest (by simp [htk])]
          exact ⟨fun t hc => by simp at hc, fun e st' ts' hc => by simp at hc⟩
        | Equals =>
          rw [parseF_unary_err f st tok rest (by simp [htk])]
          exact ⟨fun t hc => by simp at hc, fun e st' ts' hc => by simp at hc⟩
        | Error =>
          rw [parseF_unary_err f st tok rest (by simp [htk])]
          exact ⟨fun t hc => by simp at hc, fun e st' ts' hc => by simp at hc⟩
        | Eof =>
          rw [parseF_unary_err f st tok rest (by simp [htk])]
          exact ⟨fun t hc => by simp at hc, fun e st' ts' hc => by simp at hc⟩
    · -- expr
      intro st ts h
      rw [parseF_expr]
      obtain ⟨uA, uB⟩ := ihU st ts h
      cases hres : parseF f (ParseCall.unaryC st ts) with
      | none => exact ⟨fun t hc => by simp at hc, fun e st' ts' hc => by simp at hc⟩
      | some r =>
        cases r with
        | error err =>
          refine ⟨fun t hc => ?_, fun e st' ts' hc => by simp at hc⟩
          simp only [Option.some.injEq, Except.error.injEq] at hc
          exact uA t (by rw [hres, hc])
        | ok p =>
          obtain ⟨lhs, st1, ts1⟩ := p
          have h1 : endsEof ts1 := uB lhs st1 ts1 hres
          exact ihL st1 lhs ts1 h1
    · -- loop
      intro st lhs ts h
      cases ts with
      | nil => exact absurd rfl (endsEof_ne_nil _ h)
      | cons tok rest =>
        cases htk : tok.kind with
        | And =>
          rw [parseF_loop_op f st lhs tok rest (by simp [htk])]
          have hrest : endsEof rest := endsEof_tail tok rest h (by simp [htk])
          obtain ⟨eA, eB⟩ := ihE st rest hrest
          cases hres : parseF f (ParseCall.exprC st rest) with
          | none => exact ⟨fun t hc => by simp at hc, fun e st' ts' hc => by simp at hc⟩
          | some r =>
            cases r with
            | error err =>
              refine ⟨fun t hc => ?_, fun e st' ts' hc => by simp at hc⟩
              simp only [Option.some.injEq, Except.error.injEq] at hc
              exact eA t (by rw [hres, hc])
            | ok p =>
              obtain ⟨rhs, st1, ts1⟩ := p
              have h1 : endsEof ts1 := eB rhs st1 ts1 hres
              exact ihL st1 (Expr.BinOp (binopOfTK tok.kind) lhs rhs) ts1 h1
        | Or =>
          rw [parseF_loop_op f st lhs tok rest (by simp [htk])]
          have hrest : endsEof rest := endsEof_tail tok rest h (by simp [htk])
          obtain ⟨eA, eB⟩ := ihE st rest hrest
          cases hres : parseF f (ParseCall.exprC st rest) with
          | none => exact ⟨fun t hc => by simp at hc, fun e st' ts' hc => by simp at hc⟩
          | some r =>
            cases r with
            | error err =>
              refine ⟨fun t hc => ?_, fun e st' ts' hc => by simp at hc⟩
              simp only [Option.some.injEq, Except.error.injEq] at hc
              exact eA t (by rw [hres, hc])
            | ok p =>
              obtain ⟨rhs, st1, ts1⟩ := p
              have h1 : endsEof ts1 := eB rhs st1 ts1 hres
              exact ihL st1 (Expr.BinOp (binopOfTK tok.kind) lhs rhs) ts1 h1
        | Xor =>
          rw [parseF_loop_op f st lhs tok rest (by simp [htk])]
          have hrest : endsEof rest := endsEof_tail tok rest h (by simp [htk])
          obtain ⟨eA, eB⟩ := ihE st rest hrest
          cases hres : parseF f (ParseCall.exprC st rest) with
          | none => exact ⟨fun t hc => by simp at hc, fun e st' ts' hc => by simp at hc⟩
          | some r =>
            cases r with
            | error err =>
              refine ⟨fun t hc => ?_, fun e st' ts' hc => by simp at hc⟩
              simp only [Option.some.injEq, Except.error.injEq] at hc
              exact eA t (by rw [hres, hc])
            | ok p =>
              obtain ⟨rhs, st1, ts1⟩ := p
              have h1 : endsEof ts1 := eB rhs st1 ts1 hres
              exact ihL st1 (Expr.BinOp (binopOfTK tok.kind) lhs rhs) ts1 h1
        | RParen =>
          rw [parseF_loop_stop f st lhs tok rest (by simp [htk])]
          refine ⟨fun t hc => by simp at hc, fun e st' ts' hc => ?_⟩
          simp only [Option.some.injEq, Except.ok.injEq, Prod.mk.injEq] at hc
          rw [← hc.2.2]
          exact h
        | Equals =>
          rw [parseF_loop_stop f st lhs tok rest (by simp [htk])]
          refine ⟨fun t hc => by simp at hc, fun e st' ts' hc => ?_⟩
          simp only [Option.some.injEq, Except.ok.injEq, Prod.mk.injEq] at hc
          rw [← hc.2.2]
          exact h
        | Eof =>
          rw [parseF_loop_stop f st lhs tok rest (by simp [htk])]
          refine ⟨fun t hc => by simp at hc, fun e st' ts' hc => ?_⟩
          simp only [Option.some.injEq, Except.ok.injEq, Prod.mk.injEq] at hc
          rw [← hc.2.2]
          exact h
        | True =>
          rw [parseF_loop_err f st lhs tok rest (by simp [htk])]
          exact ⟨fun t hc => by simp at hc, fun e st' ts' hc => by simp at hc⟩
        | False =>
          rw [parseF_loop_err f st lhs tok rest (by simp [htk])]
          exact ⟨fun t hc => by simp at hc, fun e st' ts' hc => by simp at hc⟩
        | Var =>
          rw [parseF_loop_err f st lhs tok rest (by simp [htk])]
          exact ⟨fun t hc => by simp at hc, fun e st' ts' hc => by simp at hc⟩
        | Not =>
          rw [parseF_loop_err f st lhs tok rest (by simp [htk])]
          exact ⟨fun t hc => by simp at hc, fun e st' ts' hc => by simp at hc⟩
        | LParen =>
          rw [parseF_loop_err f st lhs tok rest (by simp [htk])]
          exact ⟨fun t hc => by simp at hc, fun e st' ts' hc => by simp at hc⟩
        | Error =>
          rw [parseF_loop_err f st lhs tok rest (by simp [htk])]
          exact ⟨fun t hc => by simp at hc, fun e st' ts' hc => by simp at hc⟩

/-- parse_equation level: on a sentinel-terminated token stream no run
returns UnexpectedEof — the consume(Equals) and expect(Var) steps always
find a token (possibly the Eof sentinel, yielding UnexpectedToken). -/
theorem parseEquationF_no_ueof (fuel : Nat) (st : PState) (ts : List Token) (h : endsEof ts) :
    ∀ t, parseEquationF fuel st ts ≠ some (Except.error (SyntaxError.UnexpectedEof t)) := by
  obtain ⟨-, hE, -⟩ := parseF_eof_inv fuel
  obtain ⟨eA, eB⟩ := hE st ts h
  intro t hc
  unfold parseEquationF at hc
  cases hres : parseF fuel (ParseCall.exprC st ts) with
  | none => rw [hres] at hc; simp at hc
  | some r =>
    cases r with
    | error err =>
      rw [hres] at hc
      simp only [Option.some.injEq, Except.error.injEq] at hc
      exact eA t (by rw [hres, hc])
    | ok p =>
      obtain ⟨lhs, st1, ts1⟩ := p
      have h1 : endsEof ts1 := eB lhs st1 ts1 hres
      rw [hres] at hc
      cases ts1 with
      | nil => exact absurd rfl (endsEof_ne_nil _ h1)
      | cons tok restT =>
        by_cases heq : tok.kind = TK.Equals
        · have h2 : endsEof restT := endsEof_tail tok restT h1 (by simp [heq])
          cases restT with
          | nil => exact absurd rfl (endsEof_ne_nil _ h2)
          | cons tok2 rest2 =>
            by_cases hvar : tok2.kind = TK.Var
            · simp [heq, hvar] at hc
            · simp [heq, hvar] at hc
        · simp [heq] at hc

/-- Claim C10: for every input string, parse_equation never returns the
UnexpectedEof error variant: the lexer always yields one synthetic Eof
token before the stream terminates, and every path that consumes it
returns an UnexpectedToken error instead — so running out of input (as in
parsing "A =") surfaces as UnexpectedToken whose got token has kind Eof. -/
theorem spec_c10_never_unexpected_eof :
    (∀ (input : String) (t : Token),
       parse_equation input ≠ some (Except.error (SyntaxError.UnexpectedEof t))) ∧
    parse_equation "A =" = some (Except.error
      (SyntaxError.UnexpectedToken "Variable" { kind := TK.Eof, text := "" })) := by
  constructor
  · intro input t
    exact parseEquationF_no_ueof _ _ _ (lex_endsEof input) t
  · rfl

theorem spec_c10_witness :
    parse_equation "A" ≠ some (Except.error (SyntaxError.UnexpectedEof eofToken)) :=
  spec_c10_never_unexpected_eof.1 "A" eofToken

/-! ## Symbol-table and first-occurrence bookkeeping -/

theorem lookupVar_lt_length : ∀ (ns : List String) (key : String) (i : Nat),
    lookupVar ns key = some i → i < ns.length := by
  intro ns
  induction ns with
  | nil => intro key i h; simp [lookupVar] at h
  | cons n ns ih =>
    intro key i h
    simp only [lookupVar] at h
    split at h
    · simp only [Option.some.injEq] at h
      simp [← h]
    · cases hl : lookupVar ns key with
      | none => rw [hl] at h; simp at h
      | some j =>
        rw [hl] at h
        simp only [Option.map_some', Option.some.injEq] at h
        have := ih key j hl
        simp only [List.length_cons]
        omega

theorem lookupVar_none_not_mem : ∀ (ns : List String) (key : String),
    lookupVar ns key = none → key ∉ ns := by
  intro ns
  induction ns with
  | nil => intro key h; simp
  | cons n ns ih =>
    intro key h
    simp only [lookupVar] at h
    split at h
    · simp at h
    · rename_i hne
      rw [Option.map_eq_none'] at h
      simp only [List.mem_cons, not_or]
      exact ⟨fun hk => hne hk.symm, ih key h⟩

theorem mem_addIdx_left (seen : List Nat) (x i : Nat) (h : i ∈ seen) : i ∈ addIdx seen x := by
  unfold addIdx
  split
  · exact h
  · exact List.mem_append_left _ h

theorem mem_addIdx_self (seen : List Nat) (i : Nat) : i ∈ addIdx seen i := by
  unfold addIdx
  split
  · assumption
  · exact List.mem_append_right _ (by simp)

theorem mem_of_mem_addIdx (seen : List Nat) (x i : Nat) (h : i ∈ addIdx seen x) :
    i ∈ seen ∨ i = x := by
  unfold addIdx at h
  split at h
  · exact Or.inl h
  · rcases List.mem_append.mp h with h' | h'
    · exact Or.inl h'
    · simp at h'
      exact Or.inr h'

theorem mem_foldl_addIdx_of_mem_seen : ∀ (l seen : List Nat) (i : Nat),
    i ∈ seen → i ∈ List.foldl addIdx seen l := by
  intro l
  induction l with
  | nil => intro seen i h; simpa using h
  | cons x xs ih =>
    intro seen i h
    simp only [List.foldl_cons]
    exact ih _ _ (mem_addIdx_left seen x i h)

theorem mem_foldl_addIdx_of_mem : ∀ (l seen : List Nat) (i : Nat),
    i ∈ l → i ∈ List.foldl addIdx seen l := by
  intro l
  induction l with
  | nil => intro seen i h; simp at h
  | cons x xs ih =>
    intro seen i h
    simp only [List.foldl_cons]
    rcases List.mem_cons.mp h with rfl | h'
    · exact mem_foldl_addIdx_of_mem_seen xs _ i (mem_addIdx_self seen i)
    · exact ih _ _ h'

theorem mem_of_mem_foldl_addIdx : ∀ (l seen : List Nat) (i : Nat),
    i ∈ List.foldl addIdx seen l → i ∈ seen ∨ i ∈ l := by
  intro l
  induction l with
  | nil => intro seen i h; exact Or.inl (by simpa using h)
  | cons x xs ih =>
    intro seen i h
    simp only [List.foldl_cons] at h
    rcases ih _ _ h with h' | h'
    · rcases mem_of_mem_addIdx seen x i h' with h'' | h''
      · exact Or.inl h''
      · exact Or.inr (by simp [h''])
    · exact Or.inr (List.mem_cons_of_mem _ h')

/-- The interning invariant of the parser, by induction on fuel. For a
successful parse: starting from the set of already-assigned indices (in
index order, `range` of the symbol-table size), folding the expression's
variable occurrences in source order through first-occurrence recording
yields exactly the indices of the final symbol table — i.e. each new
variable receives the next sequential index at its first occurrence.
Additionally the name list stays duplicate-free, and a successful
parse_expr stops only on a RParen/Equals/Eof lookahead (or the stream
end). -/
theorem parseF_post : ∀ fuel : Nat,
    (∀ st ts e st' ts',
      parseF fuel (ParseCall.unaryC st ts) = some (Except.ok (e, st', ts')) →
      (List.foldl addIdx (List.range st.names.length) (varIndicesInOrder e)
          = List.range st'.names.length) ∧
      (st.names.Nodup → st'.names.Nodup)) ∧
    (∀ st ts e st' ts',
      parseF fuel (ParseCall.exprC st ts) = some (Except.ok (e, st', ts')) →
      ((List.foldl addIdx (List.range st.names.length) (varIndicesInOrder e)
          = List.range st'.names.length) ∧
       (st.names.Nodup → st'.names.Nodup)) ∧
      (ts' = [] ∨ ∃ tok rest, ts' = tok :: rest ∧
        (tok.kind = TK.RParen ∨ tok.kind = TK.Equals ∨ tok.kind = TK.Eof))) ∧
    (∀ st lhs ts e st' ts',
      parseF fuel (ParseCall.loopC st lhs ts) = some (Except.ok (e, st', ts')) →
      ((∀ seen, List.foldl addIdx seen (varIndicesInOrder lhs) = List.range st.names.length →
          List.foldl addIdx seen (varIndicesInOrder e) = List.range st'.names.length) ∧
       (st.names.Nodup → st'.names.Nodup)) ∧
      (ts' = [] ∨ ∃ tok rest, ts' = tok :: rest ∧
        (tok.kind = TK.RParen ∨ tok.kind = TK.Equals ∨ tok.kind = TK.Eof))) := by
  intro fuel
  induction fuel with
  | zero =>
    refine ⟨fun st ts e st' ts' hc => ?_, fun st ts e st' ts' hc => ?_,
            fun st lhs ts e st' ts' hc => ?_⟩ <;> simp [parseF_zero] at hc
  | succ f ih =>
    obtain ⟨ihU, ihE, ihL⟩ := ih
    refine ⟨?_, ?_, ?_⟩
    · -- unary
      intro st ts e st' ts' hc
      cases ts with
      | nil => rw [parseF_unary_nil] at hc; simp at hc
      | cons tok rest =>
        cases htk : tok.kind with
        | True =>
          rw [parseF_unary_true f st tok rest htk] at hc
          simp only [Option.some.injEq, Except.ok.injEq, Prod.mk.injEq] at hc
          obtain ⟨h1, h2, h3⟩ := hc
          subst h1; subst h2
          exact ⟨by simp [varIndicesInOrder], fun h => h⟩
        | False =>
          rw [parseF_unary_false f st tok rest htk] at hc
          simp only [Option.some.injEq, Except.ok.injEq, Prod.mk.injEq] at hc
          obtain ⟨h1, h2, h3⟩ := hc
          subst h1; subst h2
          exact ⟨by simp [varIndicesInOrder], fun h => h⟩
        | Var =>
          rw [parseF_unary_var f st tok rest htk] at hc
          simp only [Option.some.injEq, Except.ok.injEq, Prod.mk.injEq] at hc
          obtain ⟨h1, h2, h3⟩ := hc
          subst h1; subst h2
          unfold insert_var
          cases hl : lookupVar st.names tok.text with
          | some i =>
            simp only
            constructor
            · simp [varIndicesInOrder, hl, insert_var, addIdx,
                    List.mem_range.mpr (lookupVar_lt_length _ _ _ hl)]
            · exact fun h => by simpa [insert_var, hl] using h
          | none =>
            constructor
            · simp only [varIndicesInOrder, List.foldl_cons, List.foldl_nil, insert_var, hl]
              have hnm : ¬ st.names.length ∈ List.range st.names.length := by
                simp [List.mem_range]
              simp only [addIdx, if_neg hnm]
              simp [List.range_succ]
            · intro h
              simp only [insert_var, hl]
              rw [List.nodup_append]
              refine ⟨h, by simp, ?_⟩
              intro a ha hb
              simp only [List.mem_singleton] at hb
              subst hb
              exact (lookupVar_none_not_mem _ _ hl) ha
        | Not =>
          rw [parseF_unary_not f st tok rest htk] at hc
          cases hres : parseF f (ParseCall.exprC st rest) with
          | none => rw [hres] at hc; simp at hc
          | some r =>
            cases r with
            | error err => rw [hres] at hc; simp at hc
            | ok p =>
              obtain ⟨e1, st1, ts1⟩ := p
              rw [hres] at hc
              simp only [Option.some.injEq, Except.ok.injEq, Prod.mk.injEq] at hc
              obtain ⟨h1, h2, h3⟩ := hc
              subst h1; subst h2
              obtain ⟨⟨hf, hn⟩, -⟩ := ihE st rest e1 st1 ts1 hres
              exact ⟨by simpa [varIndicesInOrder] using hf, hn⟩
        | LParen =>
          rw [parseF_unary_lparen f st tok rest htk] at hc
          cases hres : parseF f (ParseCall.exprC st rest) with
          | none => rw [hres] at hc; simp at hc
          | some r =>
            cases r with
            | error err => rw [hres] at hc; simp at hc
            | ok p =>
              obtain ⟨e1, st1, ts1⟩ := p
              rw [hres] at hc
              cases ts1 with
              | nil => simp at hc
              | cons tok2 rest2 =>
                by_cases h2 : tok2.kind = TK.RParen
                · simp only [h2, if_true, Option.some.injEq, Except.ok.injEq,
                    Prod.mk.injEq] at hc
                  obtain ⟨ha, hb, hd⟩ := hc
                  subst ha; subst hb
                  obtain ⟨⟨hf, hn⟩, -⟩ := ihE st rest e1 st1 (tok2 :: rest2) hres
                  exact ⟨hf, hn⟩
                · simp [h2] at hc
        | And => rw [parseF_unary_err f st tok rest (by simp [htk])] at hc; simp at hc
        | Or => rw [parseF_unary_err f st tok rest (by simp [htk])] at hc; simp at hc
        | Xor => rw [parseF_unary_err f st tok rest (by simp [htk])] at hc; simp at hc
        | RParen => rw [parseF_unary_err f st tok rest (by simp [htk])] at hc; simp at hc
        | Equals => rw [parseF_unary_err f st tok rest (by simp [htk])] at hc; simp at hc
        | Error => rw [parseF_unary_err f st tok rest (by simp [htk])] at hc; simp at hc
        | Eof => rw [parseF_unary_err f st tok rest (by simp [htk])] at hc; simp at hc
    · -- expr
      intro st ts e st' ts' hc
      rw [parseF_expr] at hc
      cases hres : parseF f (ParseCall.unaryC st ts) with
      | none => rw [hres] at hc; simp at hc
      | some r =>
        cases r with
        | error err => rw [hres] at hc; simp at hc
        | ok p =>
          obtain ⟨lhs0, st1, ts1⟩ := p
          rw [hres] at hc
          simp only at hc
          obtain ⟨hfU, hnU⟩ := ihU st ts lhs0 st1 ts1 hres
          obtain ⟨⟨hfL, hnL⟩, hstop⟩ := ihL st1 lhs0 ts1 e st' ts' hc
          exact ⟨⟨hfL (List.range st.names.length) hfU, fun h => hnL (hnU h)⟩, hstop⟩
    · -- loop
      intro st lhs ts e st' ts' hc
      cases ts with
      | nil =>
        rw [parseF_loop_nil] at hc
        simp only [Option.some.injEq, Except.ok.injEq, Prod.mk.injEq] at hc
        obtain ⟨h1, h2, h3⟩ := hc
        subst h1; subst h2
        exact ⟨⟨fun seen hs => hs, fun h => h⟩, Or.inl h3.symm⟩
      | cons tok rest =>
        cases htk : tok.kind with
        | And =>
          rw [parseF_loop_op f st lhs tok rest (by simp [htk])] at hc
          cases hres : parseF f (ParseCall.exprC st rest) with
          | none => rw [hres] at hc; simp at hc
          | some r =>
            cases r with
            | error err => rw [hres] at hc; simp at hc
            | ok p =>
              obtain ⟨rhs, st1, ts1⟩ := p
              rw [hres] at hc
              simp only at hc
              obtain ⟨⟨hfE, hnE⟩, -⟩ := ihE st rest rhs st1 ts1 hres
              obtain ⟨⟨hfL, hnL⟩, hstop⟩ :=
                ihL st1 (Expr.BinOp (binopOfTK tok.kind) lhs rhs) ts1 e st' ts' hc
              refine ⟨⟨fun seen hs => ?_, fun h => hnL (hnE h)⟩, hstop⟩
              apply hfL seen
              simp only [varIndicesInOrder, List.foldl_append]
              rw [hs, hfE]
        | Or =>
          rw [parseF_loop_op f st lhs tok rest (by simp [htk])] at hc
          cases hres : parseF f (ParseCall.exprC st rest) with
          | none => rw [hres] at hc; simp at hc
          | some r =>
            cases r with
            | error err => rw [hres] at hc; simp at hc
            | ok p =>
              obtain ⟨rhs, st1, ts1⟩ := p
              rw [hres] at hc
              simp only at hc
              obtain ⟨⟨hfE, hnE⟩, -⟩ := ihE st rest rhs st1 ts1 hres
              obtain ⟨⟨hfL, hnL⟩, hstop⟩ :=
                ihL st1 (Expr.BinOp (binopOfTK tok.kind) lhs rhs) ts1 e st' ts' hc
              refine ⟨⟨fun seen hs => ?_, fun h => hnL (hnE h)⟩, hstop⟩
              apply hfL seen
              simp only [varIndicesInOrder, List.foldl_append]
              rw [hs, hfE]
        | Xor =>
          rw [parseF_loop_op f st lhs tok rest (by simp [htk])] at hc
          cases hres : parseF f (ParseCall.exprC st rest) with
          | none => rw [hres] at hc; simp at hc
          | some r =>
            cases r with
            | error err => rw [hres] at hc; simp at hc
            | ok p =>
              obtain ⟨rhs, st1, ts1⟩ := p
              rw [hres] at hc
              simp only at hc
              obtain ⟨⟨hfE, hnE⟩, -⟩ := ihE st rest rhs st1 ts1 hres
              obtain ⟨⟨hfL, hnL⟩, hstop⟩ :=
                ihL st1 (Expr.BinOp (binopOfTK tok.kind) lhs rhs) ts1 e st' ts' hc
              refine ⟨⟨fun seen hs => ?_, fun h => hnL (hnE h)⟩, hstop⟩
              apply hfL seen
              simp only [varIndicesInOrder, List.foldl_append]
              rw [hs, hfE]
        | RParen =>
          rw [parseF_loop_stop f st lhs tok rest (by simp [htk])] at hc
          simp only [Option.some.injEq, Except.ok.injEq, Prod.mk.injEq] at hc
          obtain ⟨h1, h2, h3⟩ := hc
          subst h1; subst h2
          exact ⟨⟨fun seen hs => hs, fun h => h⟩,
                 Or.inr ⟨tok, rest, h3.symm, Or.inl htk⟩⟩
        | Equals =>
          rw [parseF_loop_stop f st lhs tok rest (by simp [htk])] at hc
          simp only [Option.some.injEq, Except.ok.injEq, Prod.mk.injEq] at hc
          obtain ⟨h1, h2, h3⟩ := hc
          subst h1; subst h2
          exact ⟨⟨fun seen hs => hs, fun h => h⟩,
                 Or.inr ⟨tok, rest, h3.symm, Or.inr (Or.inl htk)⟩⟩
        | Eof =>
          rw [parseF_loop_stop f st lhs tok rest (by simp [htk])] at hc
          simp only [Option.some.injEq, Except.ok.injEq, Prod.mk.injEq] at hc
          obtain ⟨h1, h2, h3⟩ := hc
          subst h1; subst h2
          exact ⟨⟨fun seen hs => hs, fun h => h⟩,
                 Or.inr ⟨tok, rest, h3.symm, Or.inr (Or.inr htk)⟩⟩
        | True => rw [parseF_loop_err f st lhs tok rest (by simp [htk])] at hc; simp at hc
        | False => rw [parseF_loop_err f st lhs tok rest (by simp [htk])] at hc; simp at hc
        | Var => rw [parseF_loop_err f st lhs tok rest (by simp [htk])] at hc; simp at hc
        | Not => rw [parseF_loop_err f st lhs tok rest (by simp [htk])] at hc; simp at hc
        | LParen => rw [parseF_loop_err f st lhs tok rest (by simp [htk])] at hc; simp at hc
        | Error => rw [parseF_loop_err f st lhs tok rest (by simp [htk])] at hc; simp at hc

/-- Sorting the symbol-table pairs by their (distinct, dense) indices gives
back the names in index order: the sort in parse_equation is the identity
on the model's index-ordered pair list. -/
theorem equationInputs_eq (names : List String) : equationInputs names = names := by
  unfold equationInputs
  have h1 : (names.enum.map Prod.fst).Pairwise (fun a b : Nat => a ≤ b) := by
    rw [List.enum_map_fst]
    exact List.sorted_le_range names.length
  have h2 : names.enum.Pairwise (fun a b => a.1 ≤ b.1) := List.pairwise_map.mp h1
  have hsorted : List.Sorted (fun a b : String × Nat => a.2 ≤ b.2)
      (names.enum.map (fun p => (p.2, p.1))) := List.pairwise_map.mpr h2
  rw [List.Sorted.insertionSort_eq hsorted, List.map_map]
  have hcomp : ((fun p : String × Nat => p.1) ∘ (fun p : Nat × String => (p.2, p.1)))
      = Prod.snd := rfl
  rw [hcomp, List.enum_map_snd]

/-- Success inversion of parse_equation: a successful run is an expression
parse that stopped right before an Equals token followed by a Var token;
the equation is assembled from the sorted symbol table, the expression and
the output token's text, and the tokens after the output are returned
untouched. -/
theorem parseEquationF_ok (fuel : Nat) (st : PState) (ts : List Token)
    (eq : Equation) (rest : List Token)
    (h : parseEquationF fuel st ts = some (Except.ok (eq, rest))) :
    ∃ st' tokEq tokV,
      parseF fuel (ParseCall.exprC st ts)
        = some (Except.ok (eq.lhs, st', tokEq :: tokV :: rest)) ∧
      tokEq.kind = TK.Equals ∧ tokV.kind = TK.Var ∧
      eq.inputs = equationInputs st'.names ∧ eq.output = tokV.text := by
  unfold parseEquationF at h
  cases hres : parseF fuel (ParseCall.exprC st ts) with
  | none => rw [hres] at h; simp at h
  | some r =>
    cases r with
    | error err => rw [hres] at h; simp at h
    | ok p =>
      obtain ⟨lhs, st1, ts1⟩ := p
      rw [hres] at h
      cases ts1 with
      | nil => simp at h
      | cons tok restT =>
        by_cases heq : tok.kind = TK.Equals
        · cases restT with
          | nil => simp [heq] at h
          | cons tok2 rest2 =>
            by_cases hvar : tok2.kind = TK.Var
            · simp only [heq, if_true, hvar, Option.some.injEq, Except.ok.injEq,
                Prod.mk.injEq] at h
              obtain ⟨h1, h2⟩ := h
              subst h2
              refine ⟨st1, tok, tok2, ?_, heq, hvar, ?_, ?_⟩
              · rw [← h1]
              · rw [← h1]
              · rw [← h1]
            · simp [heq, hvar] at h
        · simp [heq] at h

/-- Claim C5: for every successfully parsed equation, `inputs` is exactly
the interned names: the distinct variable indices of the expression, in
first-occurrence order, are `0, 1, ..., len(inputs) - 1` (each new name got
the next sequential index, and every input column is referenced), the
names are pairwise distinct, and the output name is only in `inputs` when
its index occurs in the expression. In particular "B AND A = C" interns B
before A, giving inputs = ["B", "A"]. -/
theorem spec_c5_inputs_first_occurrence :
    (∀ (input : String) (eq : Equation) (rest : List Token),
       parse_equation input = some (Except.ok (eq, rest)) →
       dedupFirst (varIndicesInOrder eq.lhs) = List.range eq.inputs.length ∧
       eq.inputs.Nodup ∧
       (∀ i, lookupVar eq.inputs eq.output = some i → i ∈ varIndicesInOrder eq.lhs)) ∧
    parse_equation "B AND A = C" = some (Except.ok
      ({ inputs := ["B", "A"], lhs := Expr.BinOp BinOp.And (Expr.Var 0) (Expr.Var 1),
         output := "C" }, [eofToken])) := by
  constructor
  · intro input eq rest h
    obtain ⟨st', tokEq, tokV, hexpr, -, -, hinputs, -⟩ := parseEquationF_ok _ _ _ _ _ h
    obtain ⟨-, hE, -⟩ := parseF_post (2 * (lex input).length + 2)
    obtain ⟨⟨hfold, hnodup⟩, -⟩ := hE _ _ _ _ _ hexpr
    have hlen : eq.inputs = st'.names := by rw [hinputs, equationInputs_eq]
    have hfold' : dedupFirst (varIndicesInOrder eq.lhs)
        = List.range eq.inputs.length := by
      rw [hlen]
      simpa [dedupFirst] using hfold
    refine ⟨hfold', by rw [hlen]; exact hnodup (by simp), ?_⟩
    intro i hi
    have hilt : i < eq.inputs.length := lookupVar_lt_length _ _ _ hi
    have hmem : i ∈ List.range eq.inputs.length := List.mem_range.mpr hilt
    rw [← hfold'] at hmem
    rcases mem_of_mem_foldl_addIdx _ _ _ hmem with h' | h'
    · simp at h'
    · exact h'
  · rfl

theorem spec_c5_witness :
    dedupFirst (varIndicesInOrder (Expr.BinOp BinOp.And (Expr.Var 0) (Expr.Var 1)))
      = List.range (["B", "A"] : List String).length ∧
    (["B", "A"] : List String).Nodup ∧
    (∀ i, lookupVar ["B", "A"] "C" = some i →
       i ∈ varIndicesInOrder (Expr.BinOp BinOp.And (Expr.Var 0) (Expr.Var 1))) :=
  spec_c5_inputs_first_occurrence.1 "B AND A = C"
    { inputs := ["B", "A"], lhs := Expr.BinOp BinOp.And (Expr.Var 0) (Expr.Var 1),
      output := "C" } [eofToken] rfl

theorem genOutputs_compile_ok (e : Expr) (k : Nat) (h : varsBelow e k = true) :
    ∀ rows : List (List Bool), (∀ row ∈ rows, row.length = k) →
    ∃ outs, genOutputs (compile_expr [] e) rows [] = Except.ok (outs, []) := by
  intro rows
  induction rows with
  | nil => intro _; exact ⟨[], rfl⟩
  | cons row rows ih =>
    intro hr
    have hrow : row.length = k := hr row (by simp)
    have hex : exec row (compile_expr [] e) [] = Except.ok (evalExpr row e, []) := by
      unfold exec
      rw [runOps_compile row e [], evalExprOpt_eq_some row e (by rw [hrow]; exact h)]
    obtain ⟨outs, houts⟩ := ih (fun r hr' => hr r (by simp [hr']))
    exact ⟨evalExpr row e :: outs, by simp [genOutputs, hex, houts]⟩

theorem gen_compile_ok (eq : Equation) (h : varsBelow eq.lhs eq.inputs.length = true) :
    ∃ t, gen (compile eq) = Except.ok t := by
  have hrows : ∀ row ∈ (List.range (1 <<< (eq.inputs.length % 64))).map
      (fun i => usize_to_bools i eq.inputs.length), row.length = eq.inputs.length := by
    intro row hrow
    rcases List.mem_map.mp hrow with ⟨i, -, hrw⟩
    rw [← hrw, usize_to_bools_length]
  obtain ⟨outs, houts⟩ := genOutputs_compile_ok eq.lhs eq.inputs.length h _ hrows
  refine ⟨{ input_names := eq.inputs,
            inputs := (List.range (1 <<< (eq.inputs.length % 64))).map
              (fun i => usize_to_bools i eq.inputs.length),
            output_name := eq.output, outputs := outs }, ?_⟩
  simp only [gen, compile]
  rw [houts]

/-- Claim C7: every Var index in a successfully parsed equation is below
the number of inputs, so every Load executed by the VM on the generated
rows (whose length equals the number of inputs) is in bounds and the whole
table generation succeeds. -/
theorem spec_c7_loads_in_bounds :
    ∀ (input : String) (eq : Equation) (rest : List Token),
      parse_equation input = some (Except.ok (eq, rest)) →
      varsBelow eq.lhs eq.inputs.length = true ∧
      ∃ t, gen (compile eq) = Except.ok t := by
  intro input eq rest h
  obtain ⟨st', tokEq, tokV, hexpr, -, -, hinputs, -⟩ := parseEquationF_ok _ _ _ _ _ h
  obtain ⟨-, hE, -⟩ := parseF_post (2 * (lex input).length + 2)
  obtain ⟨⟨hfold, -⟩, -⟩ := hE _ _ _ _ _ hexpr
  have hlen : eq.inputs = st'.names := by rw [hinputs, equationInputs_eq]
  have hfold' : List.foldl addIdx [] (varIndicesInOrder eq.lhs)
      = List.range eq.inputs.length := by
    rw [hlen]
    simpa using hfold
  have hvb : varsBelow eq.lhs eq.inputs.length = true := by
    unfold varsBelow
    apply List.all_eq_true.mpr
    intro i hi
    have h1 : i ∈ List.foldl addIdx [] (varIndicesInOrder eq.lhs) :=
      mem_foldl_addIdx_of_mem _ _ _ hi
    rw [hfold'] at h1
    simpa using List.mem_range.mp h1
  exact ⟨hvb, gen_compile_ok eq hvb⟩

theorem spec_c7_witness :
    varsBelow (Expr.Var 0) (["A"] : List String).length = true ∧
    ∃ t, gen (compile { inputs := ["A"], lhs := Expr.Var 0, output := "A" })
      = Except.ok t :=
  spec_c7_loads_in_bounds "A = A"
    { inputs := ["A"], lhs := Expr.Var 0, output := "A" } [eofToken] rfl

/-- Claim C9: parse_equation stops right after the output variable: if the
expression parse leaves an Equals token, a Var token and arbitrary further
tokens, the parse succeeds using only that prefix and hands the trailing
tokens back unexamined — concretely, "A = B AND C" parses as the equation
with expression A and output B, ignoring " AND C". -/
theorem spec_c9_trailing_tokens_ignored :
    (∀ (fuel : Nat) (st : PState) (ts : List Token) (e : Expr) (st' : PState)
       (tokEq tokV : Token) (rest : List Token),
       parseF fuel (ParseCall.exprC st ts) = some (Except.ok (e, st', tokEq :: tokV :: rest)) →
       tokEq.kind = TK.Equals → tokV.kind = TK.Var →
       parseEquationF fuel st ts = some (Except.ok
         ({ inputs := equationInputs st'.names, lhs := e, output := tokV.text }, rest))) ∧
    parse_equation "A = B AND C" = some (Except.ok
      ({ inputs := ["A"], lhs := Expr.Var 0, output := "B" },
       [{ kind := TK.And, text := "AND" }, { kind := TK.Var, text := "C" }, eofToken])) := by
  constructor
  · intro fuel st ts e st' tokEq tokV rest hexpr hEq hVar
    unfold parseEquationF
    rw [hexpr]
    simp [hEq, hVar]
  · rfl

theorem spec_c9_witness :
    parseEquationF 14 { names := [] } (lex "A = B AND C") = some (Except.ok
      ({ inputs := equationInputs (["A"] : List String), lhs := Expr.Var 0, output := "B" },
       [{ kind := TK.And, text := "AND" }, { kind := TK.Var, text := "C" }, eofToken])) :=
  spec_c9_trailing_tokens_ignored.1 14 { names := [] } (lex "A = B AND C")
    (Expr.Var 0) { names := ["A"] } { kind := TK.Equals, text := "=" }
    { kind := TK.Var, text := "B" }
    [{ kind := TK.And, text := "AND" }, { kind := TK.Var, text := "C" }, eofToken]
    rfl rfl rfl

/-- Claim C4: binary operators parse right-associatively at one flat
precedence level: after one unary term, an And/Or/Xor lookahead makes the
parser consume the operator and parse the entire remaining expression as
the right operand (the loop's next iteration necessarily stops, since a
successful parse_expr halts only on RParen/Equals/Eof); in particular
"A AND B OR C = Z" parses as BinOp(And, A, BinOp(Or, B, C)), not as
BinOp(Or, BinOp(And, A, B), C). -/
theorem spec_c4_right_associative :
    (∀ (f : Nat) (st st' : PState) (lhs rhs : Expr) (tok : Token) (rest ts' : List Token),
       (tok.kind = TK.And ∨ tok.kind = TK.Or ∨ tok.kind = TK.Xor) →
       parseF f (ParseCall.exprC st rest) = some (Except.ok (rhs, st', ts')) →
       parseF (f + 1) (ParseCall.loopC st lhs (tok :: rest))
         = some (Except.ok (Expr.BinOp (binopOfTK tok.kind) lhs rhs, st', ts'))) ∧
    parse_equation "A AND B OR C = Z" = some (Except.ok
      ({ inputs := ["A", "B", "C"],
         lhs := Expr.BinOp BinOp.And (Expr.Var 0)
           (Expr.BinOp BinOp.Or (Expr.Var 1) (Expr.Var 2)),
         output := "Z" }, [eofToken])) ∧
    (Expr.BinOp BinOp.And (Expr.Var 0) (Expr.BinOp BinOp.Or (Expr.Var 1) (Expr.Var 2)) ≠
     Expr.BinOp BinOp.Or (Expr.BinOp BinOp.And (Expr.Var 0) (Expr.Var 1)) (Expr.Var 2)) := by
  refine ⟨?_, rfl, by decide⟩
  intro f st st' lhs rhs tok rest ts' hop hexpr
  obtain ⟨f', rfl⟩ : ∃ f', f = f' + 1 := by
    cases f with
    | zero => rw [parseF_zero] at hexpr; simp at hexpr
    | succ n => exact ⟨n, rfl⟩
  rw [parseF_loop_op (f' + 1) st lhs tok rest hop, hexpr]
  show parseF (f' + 1) (ParseCall.loopC st' (Expr.BinOp (binopOfTK tok.kind) lhs rhs) ts')
      = some (Except.ok (Expr.BinOp (binopOfTK tok.kind) lhs rhs, st', ts'))
  obtain ⟨-, hE, -⟩ := parseF_post (f' + 1)
  obtain ⟨-, hstop⟩ := hE st rest rhs st' ts' hexpr
  rcases hstop with rfl | ⟨tok2, rest2, rfl, hk⟩
  · exact parseF_loop_nil f' st' _
  · exact parseF_loop_stop f' st' _ tok2 rest2 hk

theorem spec_c4_witness :
    parseF 13 (ParseCall.loopC { names := ["A"] } (Expr.Var 0)
      ({ kind := TK.And, text := "AND" } ::
       [{ kind := TK.Var, text := "B" }, { kind := TK.Or, text := "OR" },
        { kind := TK.Var, text := "C" }, { kind := TK.Equals, text := "=" },
        { kind := TK.Var, text := "Z" }, eofToken]))
      = some (Except.ok
        (Expr.BinOp (binopOfTK ({ kind := TK.And, text := "AND" } : Token).kind)
          (Expr.Var 0) (Expr.BinOp BinOp.Or (Expr.Var 1) (Expr.Var 2)),
         { names := ["A", "B", "C"] },
         [{ kind := TK.Equals, text := "=" }, { kind := TK.Var, text := "Z" }, eofToken])) :=
  spec_c4_right_associative.1 12 { names := ["A"] } { names := ["A", "B", "C"] }
    (Expr.Var 0) (Expr.BinOp BinOp.Or (Expr.Var 1) (Expr.Var 2))
    { kind := TK.And, text := "AND" }
    [{ kind := TK.Var, text := "B" }, { kind := TK.Or, text := "OR" },
     { kind := TK.Var, text := "C" }, { kind := TK.Equals, text := "=" },
     { kind := TK.Var, text := "Z" }, eofToken]
    [{ kind := TK.Equals, text := "=" }, { kind := TK.Var, text := "Z" }, eofToken]
    (Or.inl rfl) rfl

/-- Counterexample to claim C6 as stated: the unrecognized character "#" is
not silently skipped — "A # OR B = C" does not parse like "A OR B = C";
it fails with an UnexpectedToken error carrying the Error token. -/
theorem spec_c6_counterexample :
    parse_equation "A # OR B = C" ≠ parse_equation "A OR B = C" ∧
    parse_equation "A # OR B = C" = some (Except.error
      (SyntaxError.UnexpectedToken "AND, OR, XOR or )"
        { kind := TK.Error, text := "#" })) := by
  exact ⟨by decide, rfl⟩

/-- Claim C6 as amended: whitespace is skipped by the lexer, but a byte
sequence matching no lexeme is emitted as an Error token which the parser
does not skip: "A # OR B = C" lexes with an Error token for "#" and fails
to parse with an UnexpectedToken error at that token, while "A OR B = C"
parses successfully. -/
theorem spec_c6_error_token_not_skipped :
    lex "A # OR B = C" =
      [{ kind := TK.Var, text := "A" }, { kind := TK.Error, text := "#" },
       { kind := TK.Or, text := "OR" }, { kind := TK.Var, text := "B" },
       { kind := TK.Equals, text := "=" }, { kind := TK.Var, text := "C" }, eofToken] ∧
    parse_equation "A # OR B = C" = some (Except.error
      (SyntaxError.UnexpectedToken "AND, OR, XOR or )"
        { kind := TK.Error, text := "#" })) ∧
    parse_equation "A OR B = C" = some (Except.ok
      ({ inputs := ["A", "B"], lhs := Expr.BinOp BinOp.Or (Expr.Var 0) (Expr.Var 1),
         output := "C" }, [eofToken])) :=
  ⟨rfl, rfl, rfl⟩

/-- Claim C8: the full pipeline on "A = A" renders exactly the four lines
of the expected markdown table, each newline-terminated (including the
last), with one-character columns and booleans rendered 1/0. -/
theorem spec_c8_formatter_exact_output :
    table_string "A = A" = some "| A | A |\n|---|---|\n| 0 | 0 |\n| 1 | 1 |\n" := by
  rfl
